import Mathlib

/-!
# Verification of the Huffman coder in `src/huffman.py`

Shallow embedding of the compression / decompression core of `huffman.py`.
Conventions of the embedding:

* a Python bit-string (a `str` of `'0'`/`'1'` characters) is a `List Bool`
  with `'1' ↔ true`, kept in the same left-to-right order;
* symbols (the characters of the input text) are an arbitrary type `α` with
  decidable equality;
* a Python `dict` built by successive assignments with pairwise-distinct keys
  is an association list in insertion order, looked up with `lookupA`;
* Python code that can raise (`KeyError` in `get_encoded_text`, `IndexError`
  from `heappop` on an empty heap in `make_codes`) or call `exit`
  (`get_byte_array`) returns `Option`, `none` being the raising outcome;
* `heapq` (Python's standard-library binary min-heap, ordered here by
  `HeapNode.__lt__`, i.e. by `freq`) is modelled as a list kept sorted by
  `freq` with stable insertion: `heappush` inserts in order after equal
  frequencies, `heappop` takes the head.  This realizes the documented
  heap contract (pop returns a minimum-frequency node; order among equal
  frequencies is an implementation detail on both sides);
* the `while len(heap) > 1` loop of `merge_nodes` is written with an explicit
  iteration bound (`mergeLoop` with fuel `heap.length`): each iteration
  shrinks the heap by exactly one node, so `heap.length` iterations always
  reach the `len(heap) <= 1` exit condition.
-/

set_option linter.unusedSectionVars false
set_option linter.unusedVariables false

namespace Huffman

/-- A `HeapNode` of `huffman.py`: a leaf carries a character and its
frequency (`char != None`); a merged node carries only the summed frequency
and its two children (`char == None`, `left`/`right` set). -/
inductive HeapNode (α : Type) where
  | leaf (char : α) (freq : Nat)
  | node (freq : Nat) (left : HeapNode α) (right : HeapNode α)

namespace HeapNode

/-- The `freq` attribute of a `HeapNode`. -/
def freq {α : Type} : HeapNode α → Nat
  | leaf _ f => f
  | node f _ _ => f

/-- The characters carried by the leaves of a tree, left to right. -/
def leaves {α : Type} : HeapNode α → List α
  | leaf c _ => [c]
  | node _ l r => leaves l ++ leaves r

end HeapNode

/-- Association-list lookup: the Python `d[k]` / `k in d` pair for the
dictionaries of `huffman.py` (whose keys are pairwise distinct). -/
def lookupA {β : Type} [DecidableEq β] {γ : Type} : List (β × γ) → β → Option γ
  | [], _ => none
  | (k, v) :: rest, key => if k = key then some v else lookupA rest key

variable {α : Type} [DecidableEq α]

/-- One step of `make_frequency_dict`: `frequency[character] += 1`, with the
`frequency[character] = 0` initialisation on first sight (appending the new
key, as a Python dict records insertion order). -/
def bump : List (α × Nat) → α → List (α × Nat)
  | [], c => [(c, 1)]
  | (k, v) :: rest, c => if k = c then (k, v + 1) :: rest else (k, v) :: bump rest c

/-- `make_frequency_dict(text)` of `huffman.py`: count the occurrences of
each character, keys in first-occurrence order. -/
def make_frequency_dict : List α → List (α × Nat) → List (α × Nat)
  | [], frequency => frequency
  | c :: rest, frequency => make_frequency_dict rest (bump frequency c)

/-- `heapq.heappush` for `HeapNode`s (ordered by `freq`): stable insertion
into the frequency-sorted list modelling the heap. -/
def heappush : List (HeapNode α) → HeapNode α → List (HeapNode α)
  | [], item => [item]
  | h :: t, item => if item.freq < h.freq then item :: h :: t else h :: heappush t item

/-- `make_heap(frequency)` of `huffman.py`: push one leaf per frequency
entry, in dict order, onto the heap (initially `self.heap = []`). -/
def make_heap : List (α × Nat) → List (HeapNode α) → List (HeapNode α)
  | [], heap => heap
  | (k, f) :: rest, heap => make_heap rest (heappush heap (HeapNode.leaf k f))

/-- The `while len(heap) > 1` loop body of `merge_nodes`: pop the two
minimum nodes (`node1`, `node2`), push a merged internal node with
`left = node1`, `right = node2` and the summed frequency.  `fuel` bounds the
iteration count; every iteration shrinks the heap by one node, so the
`heap.length` supplied by `merge_nodes` always reaches the exit condition. -/
def mergeLoop : Nat → List (HeapNode α) → List (HeapNode α)
  | 0, heap => heap
  | _ + 1, [] => []
  | _ + 1, [n] => [n]
  | fuel + 1, n1 :: n2 :: rest =>
      mergeLoop fuel (heappush rest (HeapNode.node (n1.freq + n2.freq) n1 n2))

/-- `merge_nodes` of `huffman.py`. -/
def merge_nodes (heap : List (HeapNode α)) : List (HeapNode α) :=
  mergeLoop heap.length heap

/-- `make_codes_helper(root, current_code)` of `huffman.py`: depth-first
traversal accumulating the path, `"0"` on a left edge and `"1"` on a right
edge; at a leaf (`char != None`) record `codes[char] = current_code`.
Returned as the insertion-order list of `(char, code)` assignments; the
simultaneous `reverse_mapping` assignments are the swapped pairs
(`reverse_mapping` below). -/
def make_codes_helper : HeapNode α → List Bool → List (α × List Bool)
  | HeapNode.leaf c _, current_code => [(c, current_code)]
  | HeapNode.node _ l r, current_code =>
      make_codes_helper l (current_code ++ [false]) ++
        make_codes_helper r (current_code ++ [true])

/-- `make_codes` of `huffman.py`: pop the root off the heap and traverse it.
`heappop` on an empty heap raises `IndexError`, modelled as `none`. -/
def make_codes (heap : List (HeapNode α)) : Option (List (α × List Bool)) :=
  match heap with
  | [] => none
  | root :: _ => some (make_codes_helper root [])

/-- The `reverse_mapping` dict built alongside `codes` in
`make_codes_helper`: code → character, in the same traversal order. -/
def reverse_mapping (codes : List (α × List Bool)) : List (List Bool × α) :=
  codes.map (fun e => (e.2, e.1))

/-- `get_encoded_text(text)` of `huffman.py`: concatenate
`self.codes[character]` over the text.  A character missing from `codes`
raises `KeyError` (`none`); nothing is emitted in that case. -/
def get_encoded_text (codes : List (α × List Bool)) : List α → Option (List Bool)
  | [] => some []
  | c :: rest =>
      match lookupA codes c with
      | none => none
      | some code =>
          match get_encoded_text codes rest with
          | none => none
          | some e => some (code ++ e)

/-- `extra_padding = 8 - len(encoded_text) % 8` of `pad_encoded_text`. -/
def extra_padding (encoded_text : List Bool) : Nat :=
  8 - encoded_text.length % 8

/-- Minimal big-endian binary digits of `n`, empty for `0`
(the digits of Python's `bin(n)` after the `0b`, except that `bin(0)`
has the single digit `0`, restored in `natToBin`).  `fuel` bounds the
recursion on `n / 2`; `n` itself always suffices. -/
def natToBinAux : Nat → Nat → List Bool
  | 0, _ => []
  | fuel + 1, n => if n = 0 then [] else natToBinAux fuel (n / 2) ++ [decide (n % 2 = 1)]

/-- Minimal big-endian binary digits of `n`, empty for `0`. -/
def natToBinCore (n : Nat) : List Bool :=
  natToBinAux n n

/-- `bin(n)[2:]` : minimal big-endian binary digits, `"0"` for `0`. -/
def natToBin (n : Nat) : List Bool :=
  if n = 0 then [false] else natToBinCore n

/-- `"{0:08b}".format(n)`, and likewise `bin(n)[2:].rjust(8, '0')` in
`decompress`: the binary digits of `n` left-padded with zeros to (at least)
width 8.  For `n < 256` the width is exactly 8. -/
def toBinary8 (n : Nat) : List Bool :=
  List.replicate (8 - (natToBin n).length) false ++ natToBin n

/-- `pad_encoded_text(encoded_text)` of `huffman.py`: append
`extra_padding` zero bits, then prepend the 8-bit header
`"{0:08b}".format(extra_padding)`. -/
def pad_encoded_text (encoded_text : List Bool) : List Bool :=
  toBinary8 (extra_padding encoded_text) ++
    (encoded_text ++ List.replicate (extra_padding encoded_text) false)

/-- `int(s, 2)` on a bit-string: big-endian binary value. -/
def bitsToNat (bits : List Bool) : Nat :=
  bits.foldl (fun a b => 2 * a + (if b then 1 else 0)) 0

/-- The packing loop of `get_byte_array`: `int(s[i:i+8], 2)` for
`i in range(0, len(s), 8)` (a final chunk shorter than 8 bits is converted
as-is, as Python's slicing does). -/
def bytePack : List Bool → List Nat
  | b1 :: b2 :: b3 :: b4 :: b5 :: b6 :: b7 :: b8 :: rest =>
      bitsToNat [b1, b2, b3, b4, b5, b6, b7, b8] :: bytePack rest
  | [] => []
  | l => [bitsToNat l]

/-- `get_byte_array(padded_encoded_text)` of `huffman.py`: the defensive
`len % 8 != 0` check calls `exit(0)` (modelled `none`), otherwise the bytes
of the 8-bit chunks. -/
def get_byte_array (padded_encoded_text : List Bool) : Option (List Nat) :=
  if padded_encoded_text.length % 8 ≠ 0 then none
  else some (bytePack padded_encoded_text)

/-- The code-table construction of `compress`: frequency dict, heap build,
merging, `make_codes`. -/
def buildCodes (text : List α) : Option (List (α × List Bool)) :=
  make_codes (merge_nodes (make_heap (make_frequency_dict text []) []))

/-- The compression pipeline of `compress` (after the out-of-scope file I/O
and `rstrip`): frequencies, heap, merge, codes, encode, pad, pack. -/
def compressPipeline (text : List α) : Option (List Nat) :=
  match buildCodes text with
  | none => none
  | some codes =>
      match get_encoded_text codes text with
      | none => none
      | some encoded_text => get_byte_array (pad_encoded_text encoded_text)

/-- The byte-expansion loop of `decompress`:
`bin(byte)[2:].rjust(8, '0')` concatenated over the payload bytes. -/
def bytesToBits : List Nat → List Bool
  | [] => []
  | b :: rest => toBinary8 b ++ bytesToBits rest

/-- `remove_padding(padded_encoded_text)` of `huffman.py`: read the first
8 bits as `extra_padding`, drop them, and drop the last `extra_padding` bits
via the Python slice `s[:-extra_padding]` — which is the empty string when
`extra_padding = 0`, and `s[0 : len(s) - extra_padding]` otherwise. -/
def remove_padding (padded_encoded_text : List Bool) : List Bool :=
  let extra := bitsToNat (padded_encoded_text.take 8)
  let rest := padded_encoded_text.drop 8
  rest.take (if extra = 0 then 0 else rest.length - extra)

/-- The loop of `decode_text`: accumulate bits into `current_code`, emit
`reverse_mapping[current_code]` and reset on a dictionary hit.  Returns the
decoded symbols together with the final (unemitted) accumulator. -/
def decodeTextAux (rm : List (List Bool × α)) :
    List Bool → List Bool → List α × List Bool
  | current_code, [] => ([], current_code)
  | current_code, b :: rest =>
      match lookupA rm (current_code ++ [b]) with
      | some ch =>
          let r := decodeTextAux rm [] rest
          (ch :: r.1, r.2)
      | none => decodeTextAux rm (current_code ++ [b]) rest

/-- `decode_text(encoded_text)` of `huffman.py`: the decoded symbols; any
trailing bits left in `current_code` are silently discarded. -/
def decode_text (rm : List (List Bool × α)) (encoded_text : List Bool) : List α :=
  (decodeTextAux rm [] encoded_text).1

/-- The decompression pipeline of `decompress` (after the out-of-scope file
I/O): expand bytes to bits, strip the padding, greedily decode against the
reverse mapping. -/
def decompressPipeline (rm : List (List Bool × α)) (payload : List Nat) : List α :=
  decode_text rm (remove_padding (bytesToBits payload))

/-- All leaf characters of the nodes on a heap, in order (proof device). -/
def heapLeaves : List (HeapNode α) → List α
  | [] => []
  | n :: rest => n.leaves ++ heapLeaves rest

/-- Concatenation of per-symbol codes over a text (proof device). -/
def concatCodes (enc : α → List Bool) : List α → List Bool
  | [] => []
  | c :: rest => enc c ++ concatCodes enc rest

/-! ## Association-list lookup -/

theorem lookupA_mem {β : Type} [DecidableEq β] {γ : Type} :
    ∀ {l : List (β × γ)} {k : β} {v : γ}, lookupA l k = some v → (k, v) ∈ l := by
  intro l
  induction l with
  | nil => intro k v h; simp [lookupA] at h
  | cons e rest ih =>
      intro k v h
      obtain ⟨ek, ev⟩ := e
      by_cases hk : ek = k
      · subst hk
        simp [lookupA] at h
        subst h
        exact List.mem_cons_self _ _
      · simp [lookupA, hk] at h
        exact List.mem_cons_of_mem _ (ih h)

theorem lookupA_isSome_of_mem_keys {β : Type} [DecidableEq β] {γ : Type} :
    ∀ {l : List (β × γ)} {k : β}, k ∈ l.map Prod.fst → ∃ v, lookupA l k = some v := by
  intro l
  induction l with
  | nil => intro k h; simp at h
  | cons e rest ih =>
      intro k h
      obtain ⟨ek, ev⟩ := e
      by_cases hk : ek = k
      · exact ⟨ev, by simp [lookupA, hk]⟩
      · have : k ∈ rest.map Prod.fst := by
          rcases List.mem_map.mp h with ⟨p, hp, hpk⟩
          rcases List.mem_cons.mp hp with rfl | hp'
          · exact absurd hpk hk
          · exact List.mem_map.mpr ⟨p, hp', hpk⟩
        rcases ih this with ⟨v, hv⟩
        exact ⟨v, by simpa [lookupA, hk] using hv⟩

theorem lookupA_eq_some_of {β : Type} [DecidableEq β] {γ : Type} :
    ∀ {l : List (β × γ)} {k : β} {v : γ}, (k, v) ∈ l →
      (∀ e ∈ l, e.1 = k → e.2 = v) → lookupA l k = some v := by
  intro l
  induction l with
  | nil => intro k v h _; simp at h
  | cons e rest ih =>
      intro k v h hall
      obtain ⟨ek, ev⟩ := e
      by_cases hk : ek = k
      · have : ev = v := hall (ek, ev) (List.mem_cons_self _ _) hk
        simp [lookupA, hk, this]
      · rcases List.mem_cons.mp h with he | h'
        · exact absurd (congrArg Prod.fst he).symm hk
        · simpa [lookupA, hk] using ih h' (fun e he => hall e (List.mem_cons_of_mem _ he))

/-! ## Frequency dictionary -/

theorem mem_keys_bump_self (d : List (α × Nat)) (c : α) :
    c ∈ (bump d c).map Prod.fst := by
  induction d with
  | nil => simp [bump]
  | cons e rest ih =>
      obtain ⟨ek, ev⟩ := e
      by_cases hk : ek = c <;> simp [bump, hk, ih]

theorem mem_keys_bump_of (d : List (α × Nat)) (c x : α) :
    x ∈ d.map Prod.fst → x ∈ (bump d c).map Prod.fst := by
  induction d with
  | nil => intro h; simp at h
  | cons e rest ih =>
      intro h
      obtain ⟨ek, ev⟩ := e
      by_cases hk : ek = c
      · simpa [bump, hk] using h
      · simp only [List.map_cons, List.mem_cons] at h
        rcases h with rfl | h'
        · simp [bump, hk]
        · simp only [bump, hk, if_false, List.map_cons, List.mem_cons]
          exact Or.inr (ih h')

theorem mem_keys_make_frequency_dict :
    ∀ (text : List α) (d : List (α × Nat)) (c : α),
      c ∈ text ∨ c ∈ d.map Prod.fst →
      c ∈ (make_frequency_dict text d).map Prod.fst := by
  intro text
  induction text with
  | nil =>
      intro d c h
      rcases h with h | h
      · simp at h
      · simpa [make_frequency_dict] using h
  | cons t rest ih =>
      intro d c h
      rcases h with h | h
      · rcases List.mem_cons.mp h with rfl | h'
        · exact ih (bump d c) c (Or.inr (mem_keys_bump_self d c))
        · exact ih (bump d t) c (Or.inl h')
      · exact ih (bump d t) c (Or.inr (mem_keys_bump_of d t c h))

/-! ## Heap operations -/

theorem heappush_length (heap : List (HeapNode α)) (x : HeapNode α) :
    (heappush heap x).length = heap.length + 1 := by
  induction heap with
  | nil => rfl
  | cons h t ih =>
      by_cases hc : x.freq < h.freq <;> simp [heappush, hc, ih]

theorem heappush_ne_nil (heap : List (HeapNode α)) (x : HeapNode α) :
    heappush heap x ≠ [] := by
  intro h
  have := heappush_length heap x
  rw [h] at this
  simp at this

theorem heapLeaves_heappush (heap : List (HeapNode α)) (x : HeapNode α) :
    List.Perm (heapLeaves (heappush heap x)) (x.leaves ++ heapLeaves heap) := by
  induction heap with
  | nil => simp [heappush, heapLeaves]
  | cons h t ih =>
      by_cases hc : x.freq < h.freq
      · simp [heappush, hc, heapLeaves]
      · simp only [heappush, hc, if_false, heapLeaves]
        exact (List.Perm.append_left h.leaves ih).trans
          (List.perm_append_comm_assoc h.leaves x.leaves (heapLeaves t))

theorem heapLeaves_mergeLoop :
    ∀ (fuel : Nat) (heap : List (HeapNode α)),
      List.Perm (heapLeaves (mergeLoop fuel heap)) (heapLeaves heap) := by
  intro fuel
  induction fuel with
  | zero => intro heap; simp [mergeLoop]
  | succ f ih =>
      intro heap
      match heap with
      | [] => simp [mergeLoop]
      | [n] => simp [mergeLoop]
      | n1 :: n2 :: rest =>
          have step : List.Perm
              (heapLeaves (mergeLoop (f + 1) (n1 :: n2 :: rest)))
              ((HeapNode.node (n1.freq + n2.freq) n1 n2).leaves ++ heapLeaves rest) :=
            (ih _).trans (heapLeaves_heappush _ _)
          have hshape :
              (HeapNode.node (n1.freq + n2.freq) n1 n2).leaves ++ heapLeaves rest
                = heapLeaves (n1 :: n2 :: rest) := by
            simp [HeapNode.leaves, heapLeaves, List.append_assoc]
          exact hshape ▸ step

theorem mergeLoop_length_eq_one :
    ∀ (fuel : Nat) (heap : List (HeapNode α)), heap ≠ [] → heap.length ≤ fuel + 1 →
      (mergeLoop fuel heap).length = 1 := by
  intro fuel
  induction fuel with
  | zero =>
      intro heap hne hlen
      match heap with
      | [] => exact absurd rfl hne
      | [n] => rfl
      | n1 :: n2 :: rest => simp at hlen
  | succ f ih =>
      intro heap hne hlen
      match heap with
      | [] => exact absurd rfl hne
      | [n] => rfl
      | n1 :: n2 :: rest =>
          have hlen' : (heappush rest (HeapNode.node (n1.freq + n2.freq) n1 n2)).length
              ≤ f + 1 := by
            rw [heappush_length]
            simp only [List.length_cons] at hlen
            omega
          exact ih _ (heappush_ne_nil _ _) hlen'

theorem merge_nodes_eq_single (heap : List (HeapNode α)) (hne : heap ≠ []) :
    ∃ root, merge_nodes heap = [root] := by
  have h1 : (merge_nodes heap).length = 1 :=
    mergeLoop_length_eq_one heap.length heap hne (Nat.le_succ_of_le (Nat.le_refl _))
  exact List.length_eq_one.mp h1

theorem heapLeaves_make_heap :
    ∀ (freq : List (α × Nat)) (heap : List (HeapNode α)),
      List.Perm (heapLeaves (make_heap freq heap))
        (heapLeaves heap ++ freq.map Prod.fst) := by
  intro freq
  induction freq with
  | nil => intro heap; simp [make_heap]
  | cons e rest ih =>
      intro heap
      obtain ⟨k, f⟩ := e
      have step1 : List.Perm
          (heapLeaves (make_heap ((k, f) :: rest) heap))
          (([k] ++ heapLeaves heap) ++ rest.map Prod.fst) :=
        (ih (heappush heap (HeapNode.leaf k f))).trans
          (List.Perm.append_right _ (heapLeaves_heappush heap (HeapNode.leaf k f)))
      have step2 : List.Perm
          (([k] ++ heapLeaves heap) ++ rest.map Prod.fst)
          (heapLeaves heap ++ ((k, f) :: rest).map Prod.fst) := by
        simpa using List.perm_middle.symm
      exact step1.trans step2

/-! ## Code-table generation -/

theorem make_codes_helper_keys :
    ∀ (t : HeapNode α) (pre : List Bool),
      (make_codes_helper t pre).map Prod.fst = t.leaves := by
  intro t
  induction t with
  | leaf c f => intro pre; rfl
  | node f l r ihl ihr =>
      intro pre
      simp [make_codes_helper, HeapNode.leaves, ihl, ihr]

theorem make_codes_helper_shape :
    ∀ (t : HeapNode α) (pre : List Bool) (a : α) (code : List Bool),
      (a, code) ∈ make_codes_helper t pre → ∃ s, code = pre ++ s := by
  intro t
  induction t with
  | leaf c f =>
      intro pre a code h
      simp only [make_codes_helper, List.mem_singleton, Prod.mk.injEq] at h
      exact ⟨[], by simp [h.2]⟩
  | node f l r ihl ihr =>
      intro pre a code h
      simp only [make_codes_helper, List.mem_append] at h
      rcases h with h | h
      · rcases ihl (pre ++ [false]) a code h with ⟨s, hs⟩
        exact ⟨false :: s, by simp [hs]⟩
      · rcases ihr (pre ++ [true]) a code h with ⟨s, hs⟩
        exact ⟨true :: s, by simp [hs]⟩

/-- Codes of two (not necessarily distinct) entries of the generated code
table are never in a proper prefix relation: a prefix relation forces the
entries to coincide.  This is the prefix-freeness of the Huffman code. -/
theorem make_codes_helper_prefix_eq :
    ∀ (t : HeapNode α) (pre : List Bool) (a b : α) (ca cb : List Bool),
      (a, ca) ∈ make_codes_helper t pre → (b, cb) ∈ make_codes_helper t pre →
      ca <+: cb → a = b ∧ ca = cb := by
  intro t
  induction t with
  | leaf c f =>
      intro pre a b ca cb ha hb _
      simp only [make_codes_helper, List.mem_singleton, Prod.mk.injEq] at ha hb
      exact ⟨ha.1.trans hb.1.symm, ha.2.trans hb.2.symm⟩
  | node f l r ihl ihr =>
      intro pre a b ca cb ha hb hpre
      simp only [make_codes_helper, List.mem_append] at ha hb
      rcases ha with ha | ha <;> rcases hb with hb | hb
      · exact ihl (pre ++ [false]) a b ca cb ha hb hpre
      · rcases make_codes_helper_shape l (pre ++ [false]) a ca ha with ⟨sa, hsa⟩
        rcases make_codes_helper_shape r (pre ++ [true]) b cb hb with ⟨sb, hsb⟩
        rcases hpre with ⟨tl, htl⟩
        rw [hsa, hsb] at htl
        simp only [List.append_assoc, List.singleton_append, List.cons_append] at htl
        have hcons := List.append_cancel_left htl
        simp at hcons
      · rcases make_codes_helper_shape r (pre ++ [true]) a ca ha with ⟨sa, hsa⟩
        rcases make_codes_helper_shape l (pre ++ [false]) b cb hb with ⟨sb, hsb⟩
        rcases hpre with ⟨tl, htl⟩
        rw [hsa, hsb] at htl
        simp only [List.append_assoc, List.singleton_append, List.cons_append] at htl
        have hcons := List.append_cancel_left htl
        simp at hcons
      · exact ihr (pre ++ [true]) a b ca cb ha hb hpre

/-- Under an internal root every code is non-empty (it starts with the bit
of the first descent). -/
theorem make_codes_helper_ne_nil (f : Nat) (l r : HeapNode α) (a : α)
    (ca : List Bool) (h : (a, ca) ∈ make_codes_helper (HeapNode.node f l r) []) :
    ca ≠ [] := by
  simp only [make_codes_helper, List.nil_append, List.mem_append] at h
  rcases h with h | h
  · rcases make_codes_helper_shape l [false] a ca h with ⟨s, hs⟩
    simp [hs]
  · rcases make_codes_helper_shape r [true] a ca h with ⟨s, hs⟩
    simp [hs]

/-! ## Binary strings and byte packing -/

theorem natToBinAux_irrel :
    ∀ (n fuel1 fuel2 : Nat), n ≤ fuel1 → n ≤ fuel2 →
      natToBinAux fuel1 n = natToBinAux fuel2 n := by
  intro n
  induction n using Nat.strong_induction_on with
  | _ n ih =>
      intro fuel1 fuel2 h1 h2
      by_cases h0 : n = 0
      · subst h0
        cases fuel1 <;> cases fuel2 <;> simp [natToBinAux]
      · have hn1 : 1 ≤ n := Nat.one_le_iff_ne_zero.mpr h0
        cases fuel1 with
        | zero => omega
        | succ f1 =>
            cases fuel2 with
            | zero => omega
            | succ f2 =>
                simp only [natToBinAux, if_neg h0]
                have hdl : n / 2 < n := Nat.div_lt_self hn1 (by omega)
                have ha : n / 2 ≤ f1 := by omega
                have hb : n / 2 ≤ f2 := by omega
                rw [ih (n / 2) hdl f1 f2 ha hb]

theorem natToBinAux_eq_core (fuel n : Nat) (h : n ≤ fuel) :
    natToBinAux fuel n = natToBinCore n :=
  natToBinAux_irrel n fuel n h (Nat.le_refl n)

theorem natToBinCore_eq (n : Nat) :
    natToBinCore n = if n = 0 then []
      else natToBinCore (n / 2) ++ [decide (n % 2 = 1)] := by
  by_cases h0 : n = 0
  · subst h0; rfl
  · match n, h0 with
    | m + 1, h0 =>
        rw [if_neg h0]
        show natToBinAux (m + 1) (m + 1) = _
        simp only [natToBinAux, if_neg h0]
        rw [natToBinAux_eq_core m ((m + 1) / 2)
          (by have := Nat.div_le_self (m + 1) 2; omega)]

theorem bitsToNat_append_singleton (xs : List Bool) (b : Bool) :
    bitsToNat (xs ++ [b]) = 2 * bitsToNat xs + (if b then 1 else 0) := by
  simp [bitsToNat, List.foldl_append]

theorem foldl_bits_replicate_false :
    ∀ (k : Nat), List.foldl (fun a b => 2 * a + (if b then 1 else 0)) 0
      (List.replicate k false) = 0 := by
  intro k
  induction k with
  | zero => rfl
  | succ m ih => simpa [List.replicate_succ] using ih

theorem bitsToNat_replicate_false_append (k : Nat) (s : List Bool) :
    bitsToNat (List.replicate k false ++ s) = bitsToNat s := by
  simp [bitsToNat, List.foldl_append, foldl_bits_replicate_false]

theorem bitsToNat_natToBinCore :
    ∀ (n : Nat), bitsToNat (natToBinCore n) = n := by
  intro n
  induction n using Nat.strong_induction_on with
  | _ n ih =>
      by_cases h0 : n = 0
      · subst h0; rfl
      · have h1 : 1 ≤ n := Nat.one_le_iff_ne_zero.mpr h0
        rw [natToBinCore_eq, if_neg h0, bitsToNat_append_singleton,
          ih (n / 2) (Nat.div_lt_self h1 (by omega))]
        have hbit : (if decide (n % 2 = 1) = true then 1 else 0) = n % 2 := by
          rcases Nat.mod_two_eq_zero_or_one n with h | h <;> simp [h]
        rw [hbit]
        omega

theorem bitsToNat_natToBin (n : Nat) : bitsToNat (natToBin n) = n := by
  by_cases h0 : n = 0
  · subst h0; rfl
  · rw [natToBin, if_neg h0, bitsToNat_natToBinCore]

theorem bitsToNat_toBinary8 (n : Nat) : bitsToNat (toBinary8 n) = n := by
  rw [toBinary8, bitsToNat_replicate_false_append, bitsToNat_natToBin]

theorem natToBinCore_length_le :
    ∀ (k n : Nat), n < 2 ^ k → (natToBinCore n).length ≤ k := by
  intro k
  induction k with
  | zero =>
      intro n hn
      have h0 : n = 0 := by
        have : n < 1 := by simpa using hn
        omega
      subst h0
      simp [natToBinCore, natToBinAux]
  | succ m ih =>
      intro n hn
      by_cases h0 : n = 0
      · subst h0; simp [natToBinCore, natToBinAux]
      · rw [natToBinCore_eq, if_neg h0]
        have hdiv : n / 2 < 2 ^ m := by
          have h2 : 2 ^ (m + 1) = 2 * 2 ^ m := by ring
          omega
        have := ih (n / 2) hdiv
        simp only [List.length_append, List.length_cons, List.length_nil]
        omega

theorem toBinary8_length (n : Nat) (hn : n < 256) : (toBinary8 n).length = 8 := by
  by_cases h0 : n = 0
  · subst h0; rfl
  · have hle : (natToBinCore n).length ≤ 8 := natToBinCore_length_le 8 n (by omega)
    rw [toBinary8, natToBin, if_neg h0]
    simp only [List.length_append, List.length_replicate]
    omega

theorem replicate_append_natToBinCore :
    ∀ (bits : List Bool),
      List.replicate (bits.length - (natToBinCore (bitsToNat bits)).length) false ++
        natToBinCore (bitsToNat bits) = bits := by
  intro bits
  induction bits using List.reverseRecOn with
  | nil => rfl
  | append_singleton xs b ih =>
      rw [bitsToNat_append_singleton]
      by_cases h0 : 2 * bitsToNat xs + (if b then 1 else 0) = 0
      · have hb : b = false := by
          cases b
          · rfl
          · simp at h0
        subst hb
        have hx : bitsToNat xs = 0 := by
          simp at h0
          omega
        have hxs : List.replicate xs.length false = xs := by
          have h := ih
          rw [hx] at h
          simpa [natToBinCore, natToBinAux] using h
        rw [h0]
        simp only [natToBinCore, natToBinAux, List.append_nil, List.length_append,
          List.length_singleton, List.length_nil, Nat.sub_zero]
        rw [List.replicate_succ']
        rw [hxs]
      · rw [natToBinCore_eq, if_neg h0]
        have hdiv : (2 * bitsToNat xs + (if b then 1 else 0)) / 2 = bitsToNat xs := by
          cases b
          all_goals simp
          all_goals omega
        have hmod : decide ((2 * bitsToNat xs + (if b then 1 else 0)) % 2 = 1) = b := by
          cases b
          all_goals simp
          all_goals omega
        rw [hdiv, hmod]
        have hlen : (natToBinCore (bitsToNat xs)).length ≤ xs.length := by
          have hc := congrArg List.length ih
          simp only [List.length_append, List.length_replicate] at hc
          omega
        have hcount : (xs ++ [b]).length - (natToBinCore (bitsToNat xs) ++ [b]).length
            = xs.length - (natToBinCore (bitsToNat xs)).length := by
          simp only [List.length_append, List.length_singleton]
          omega
        rw [hcount, ← List.append_assoc, ih]

theorem toBinary8_bitsToNat (bits : List Bool) (h : bits.length = 8) :
    toBinary8 (bitsToNat bits) = bits := by
  by_cases h0 : bitsToNat bits = 0
  · have h1 := replicate_append_natToBinCore bits
    rw [h0] at h1
    have hbits : List.replicate 8 false = bits := by
      simpa [natToBinCore, natToBinAux, h] using h1
    rw [h0, ← hbits]
    decide
  · rw [toBinary8, natToBin, if_neg h0]
    have h1 := replicate_append_natToBinCore bits
    rw [h] at h1
    exact h1

theorem bytePack_append8 :
    ∀ (c rest : List Bool), c.length = 8 →
      bytePack (c ++ rest) = bitsToNat c :: bytePack rest := by
  intro c rest hc
  rcases c with _ | ⟨b1, _ | ⟨b2, _ | ⟨b3, _ | ⟨b4, _ | ⟨b5, _ | ⟨b6, _ | ⟨b7, _ | ⟨b8, tail⟩⟩⟩⟩⟩⟩⟩⟩
  all_goals simp only [List.length_cons, List.length_nil] at hc
  all_goals try omega
  have htail : tail = [] := by
    apply List.eq_nil_of_length_eq_zero
    omega
  subst htail
  rfl

theorem bytesToBits_bytePack_mul :
    ∀ (n : Nat) (bits : List Bool), bits.length = 8 * n →
      bytesToBits (bytePack bits) = bits := by
  intro n
  induction n with
  | zero =>
      intro bits h
      have : bits = [] := List.eq_nil_of_length_eq_zero (by omega)
      subst this
      rfl
  | succ m ih =>
      intro bits h
      rcases bits with _ | ⟨b1, _ | ⟨b2, _ | ⟨b3, _ | ⟨b4, _ | ⟨b5, _ | ⟨b6, _ | ⟨b7, _ | ⟨b8, rest⟩⟩⟩⟩⟩⟩⟩⟩
      all_goals simp only [List.length_cons, List.length_nil] at h
      all_goals try omega
      have hrest : rest.length = 8 * m := by omega
      have hchunk : ([b1, b2, b3, b4, b5, b6, b7, b8] : List Bool).length = 8 := rfl
      have hsplit : b1 :: b2 :: b3 :: b4 :: b5 :: b6 :: b7 :: b8 :: rest
          = [b1, b2, b3, b4, b5, b6, b7, b8] ++ rest := rfl
      rw [hsplit, bytePack_append8 _ rest hchunk]
      show toBinary8 (bitsToNat [b1, b2, b3, b4, b5, b6, b7, b8]) ++
        bytesToBits (bytePack rest) = _
      rw [toBinary8_bitsToNat _ hchunk, ih rest hrest]

theorem bytesToBits_bytePack (bits : List Bool) (h : bits.length % 8 = 0) :
    bytesToBits (bytePack bits) = bits :=
  bytesToBits_bytePack_mul (bits.length / 8) bits (by omega)

/-! ## Padding -/

theorem extra_padding_pos (e : List Bool) : 1 ≤ extra_padding e := by
  have : e.length % 8 < 8 := Nat.mod_lt _ (by omega)
  unfold extra_padding
  omega

theorem extra_padding_le_eight (e : List Bool) : extra_padding e ≤ 8 := by
  unfold extra_padding
  omega

theorem pad_encoded_text_length_mod (e : List Bool) :
    (pad_encoded_text e).length % 8 = 0 := by
  have hm : e.length % 8 < 8 := Nat.mod_lt _ (by omega)
  have hlen8 : (toBinary8 (extra_padding e)).length = 8 :=
    toBinary8_length _ (by have := extra_padding_le_eight e; omega)
  rw [pad_encoded_text]
  simp only [List.length_append, List.length_replicate, hlen8]
  unfold extra_padding
  omega

theorem remove_padding_pad_encoded_text (e : List Bool) :
    remove_padding (pad_encoded_text e) = e := by
  have hlen8 : (toBinary8 (extra_padding e)).length = 8 :=
    toBinary8_length _ (by have := extra_padding_le_eight e; omega)
  rw [remove_padding, pad_encoded_text]
  rw [show (8 : Nat) = (toBinary8 (extra_padding e)).length from hlen8.symm]
  rw [List.take_left, List.drop_left, bitsToNat_toBinary8]
  have hne : extra_padding e ≠ 0 := by
    have := extra_padding_pos e
    omega
  rw [if_neg hne]
  simp only [List.length_append, List.length_replicate]
  rw [show e.length + extra_padding e - extra_padding e = e.length from by omega]
  exact List.take_left e _

/-! ## Encoding -/

theorem get_encoded_text_eq_concat (codes : List (α × List Bool)) (enc : α → List Bool) :
    ∀ (text : List α), (∀ c ∈ text, lookupA codes c = some (enc c)) →
      get_encoded_text codes text = some (concatCodes enc text) := by
  intro text
  induction text with
  | nil => intro _; rfl
  | cons c rest ih =>
      intro h
      have hc := h c (List.mem_cons_self _ _)
      have hrest := ih (fun x hx => h x (List.mem_cons_of_mem _ hx))
      simp [get_encoded_text, hc, hrest, concatCodes]

/-! ## Greedy decoding -/

theorem decodeTextAux_append (rm : List (List Bool × α)) :
    ∀ (xs acc ys : List Bool),
      decodeTextAux rm acc (xs ++ ys) =
        ((decodeTextAux rm acc xs).1 ++
            (decodeTextAux rm (decodeTextAux rm acc xs).2 ys).1,
          (decodeTextAux rm (decodeTextAux rm acc xs).2 ys).2) := by
  intro xs
  induction xs with
  | nil =>
      intro acc ys
      simp [decodeTextAux]
  | cons b xs ih =>
      intro acc ys
      show decodeTextAux rm acc (b :: (xs ++ ys)) = _
      cases hl : lookupA rm (acc ++ [b]) with
      | some ch =>
          simp only [decodeTextAux, hl, ih [] ys]
          simp
      | none =>
          simp only [decodeTextAux, hl]
          exact ih (acc ++ [b]) ys

theorem decodeTextAux_no_match (rm : List (List Bool × α)) :
    ∀ (g acc : List Bool),
      (∀ q ∈ g.inits, q ≠ [] → lookupA rm (acc ++ q) = none) →
      decodeTextAux rm acc g = ([], acc ++ g) := by
  intro g
  induction g with
  | nil => intro acc _; simp [decodeTextAux]
  | cons b g ih =>
      intro acc h
      have hb : lookupA rm (acc ++ [b]) = none :=
        h [b] ((List.mem_inits _ _).mpr ⟨g, rfl⟩) (by simp)
      have htrans : ∀ q ∈ g.inits, q ≠ [] → lookupA rm ((acc ++ [b]) ++ q) = none := by
        intro q hq hqne
        have hmem : (b :: q) ∈ (b :: g).inits := by
          rw [List.mem_inits] at hq ⊢
          rcases hq with ⟨t, ht⟩
          exact ⟨t, by simp [ht]⟩
        have := h (b :: q) hmem (by simp)
        simpa [List.append_assoc] using this
      show decodeTextAux rm acc (b :: g) = _
      simp only [decodeTextAux, hb]
      rw [ih (acc ++ [b]) htrans]
      simp

theorem decodeTextAux_code (rm : List (List Bool × α)) (c : α) :
    ∀ (s acc rest : List Bool), s ≠ [] →
      lookupA rm (acc ++ s) = some c →
      (∀ q ∈ s.inits, q ≠ [] → q ≠ s → lookupA rm (acc ++ q) = none) →
      decodeTextAux rm acc (s ++ rest) =
        (c :: (decodeTextAux rm [] rest).1, (decodeTextAux rm [] rest).2) := by
  intro s
  induction s with
  | nil =>
      intro acc rest hne
      exact absurd rfl hne
  | cons b s ih =>
      intro acc rest _ hlook hnone
      rcases s with _ | ⟨b2, s2⟩
      · show decodeTextAux rm acc (b :: rest) = _
        simp only [decodeTextAux, hlook]
      · have hfirst : lookupA rm (acc ++ [b]) = none := by
          apply hnone [b]
          · rw [List.mem_inits]
            exact ⟨b2 :: s2, rfl⟩
          · simp
          · simp
        show decodeTextAux rm acc (b :: ((b2 :: s2) ++ rest)) = _
        simp only [decodeTextAux, hfirst]
        apply ih (acc ++ [b]) rest (by simp)
        · simpa [List.append_assoc] using hlook
        · intro q hq h1 h2
          have hmem : (b :: q) ∈ (b :: b2 :: s2).inits := by
            rw [List.mem_inits] at hq ⊢
            rcases hq with ⟨t, ht⟩
            exact ⟨t, by simp [ht]⟩
          have hne2 : (b :: q) ≠ (b :: b2 :: s2) := by
            intro hc
            injection hc with _ hc2
            exact h2 hc2
          have := hnone (b :: q) hmem (by simp) hne2
          simpa [List.append_assoc] using this

theorem decodeTextAux_concat (rm : List (List Bool × α)) (enc : α → List Bool) :
    ∀ (cs : List α),
      (∀ c ∈ cs, enc c ≠ [] ∧ lookupA rm (enc c) = some c ∧
        (∀ q ∈ (enc c).inits, q ≠ [] → q ≠ enc c → lookupA rm q = none)) →
      decodeTextAux rm [] (concatCodes enc cs) = (cs, []) := by
  intro cs
  induction cs with
  | nil => intro _; rfl
  | cons c cs ih =>
      intro h
      obtain ⟨hne, hlook, hnone⟩ := h c (List.mem_cons_self _ _)
      show decodeTextAux rm [] (enc c ++ concatCodes enc cs) = _
      rw [decodeTextAux_code rm c (enc c) [] (concatCodes enc cs) hne
        (by simpa using hlook)
        (by intro q hq h1 h2; simpa using hnone q hq h1 h2)]
      rw [ih (fun x hx => h x (List.mem_cons_of_mem _ hx))]

/-! ## Tree construction: the merged root -/

theorem make_heap_length :
    ∀ (freq : List (α × Nat)) (heap : List (HeapNode α)),
      (make_heap freq heap).length = heap.length + freq.length := by
  intro freq
  induction freq with
  | nil => intro heap; simp [make_heap]
  | cons e rest ih =>
      intro heap
      obtain ⟨k, f⟩ := e
      show (make_heap rest (heappush heap (HeapNode.leaf k f))).length = _
      rw [ih, heappush_length]
      simp only [List.length_cons]
      omega

/-- A non-empty frequency table merges to a single root whose leaves are a
permutation of the table's keys. -/
theorem merge_root (freq : List (α × Nat)) (hne : freq ≠ []) :
    ∃ root, merge_nodes (make_heap freq []) = [root] ∧
      List.Perm root.leaves (freq.map Prod.fst) := by
  have hne2 : make_heap freq [] ≠ [] := by
    intro h
    have hl := make_heap_length freq []
    rw [h] at hl
    simp only [List.length_nil, Nat.zero_add] at hl
    exact hne (List.eq_nil_of_length_eq_zero hl.symm)
  obtain ⟨root, hroot⟩ := merge_nodes_eq_single _ hne2
  refine ⟨root, hroot, ?_⟩
  have h1 : List.Perm (heapLeaves (merge_nodes (make_heap freq [])))
      (heapLeaves (make_heap freq [])) := heapLeaves_mergeLoop _ _
  have h2 : List.Perm (heapLeaves (make_heap freq []))
      (heapLeaves [] ++ freq.map Prod.fst) := heapLeaves_make_heap freq []
  rw [hroot] at h1
  have h3 : heapLeaves [root] = root.leaves := by simp [heapLeaves]
  rw [h3] at h1
  have h4 := h1.trans h2
  simpa [heapLeaves] using h4

/-- The per-symbol conditions the greedy decoder needs, packaged for a code
table generated from an internal root: the code is non-empty, the reverse
mapping maps it back to its symbol, and no proper non-empty prefix of it is
a key of the reverse mapping. -/
theorem codes_decode_conditions (t : HeapNode α) (f : Nat) (l r : HeapNode α)
    (hrn : t = HeapNode.node f l r) (c : α) (cd : List Bool)
    (hmem : (c, cd) ∈ make_codes_helper t []) :
    cd ≠ [] ∧
      lookupA (reverse_mapping (make_codes_helper t [])) cd = some c ∧
      (∀ q ∈ cd.inits, q ≠ [] → q ≠ cd →
        lookupA (reverse_mapping (make_codes_helper t [])) q = none) := by
  subst hrn
  refine ⟨make_codes_helper_ne_nil f l r c cd hmem, ?_, ?_⟩
  · apply lookupA_eq_some_of
    · exact List.mem_map.mpr ⟨(c, cd), hmem, rfl⟩
    · intro e he hke
      rcases List.mem_map.mp he with ⟨x, hx, hex⟩
      obtain ⟨xa, xc⟩ := x
      subst hex
      have hke2 : xc = cd := hke
      subst hke2
      show xa = c
      exact (make_codes_helper_prefix_eq (HeapNode.node f l r) [] xa c xc xc
        hx hmem (List.prefix_refl xc)).1
  · intro q hq hqne hqneq
    cases hlq : lookupA (reverse_mapping
        (make_codes_helper (HeapNode.node f l r) [])) q with
    | none => rfl
    | some x =>
        exfalso
        have hmemq := lookupA_mem hlq
        rcases List.mem_map.mp hmemq with ⟨y, hy, hey⟩
        obtain ⟨ya, yc⟩ := y
        have h1 : yc = q := congrArg Prod.fst hey
        subst h1
        have hpre : yc <+: cd := (List.mem_inits _ _).mp hq
        exact hqneq (make_codes_helper_prefix_eq (HeapNode.node f l r) []
          ya c yc cd hy hmem hpre).2

/-! ## Claims -/

/-- Claim C1, counterexample: the round trip fails on the single-symbol
sequence `[0]`.  Its code table assigns the empty code, compression yields
the payload `[8, 0]` (header byte 8, one padding byte), and decompression
with the very reverse mapping built from the sequence's own frequencies
returns the empty sequence, not `[0]`. -/
theorem round_trip_fails_on_single_symbol :
    buildCodes [0] = some [((0 : Nat), ([] : List Bool))] ∧
    compressPipeline [0] = some [8, 0] ∧
    decompressPipeline (reverse_mapping [((0 : Nat), ([] : List Bool))]) [8, 0]
      = ([] : List Nat) ∧
    ([] : List Nat) ≠ [0] := by
  refine ⟨rfl, rfl, rfl, ?_⟩
  decide

/-- Claim C1, amended: for every symbol sequence with at least two distinct
symbols, compressing with the code table built from the sequence's own
frequencies and then decompressing the payload with the same reverse
mapping yields exactly the original sequence.  (The claim as stated, for
every non-empty sequence, fails on single-symbol sequences, whose lone
code is empty.) -/
theorem round_trip_two_distinct (text : List α)
    (h2 : 2 ≤ (make_frequency_dict text []).length) :
    ∃ codes payload,
      buildCodes text = some codes ∧
      compressPipeline text = some payload ∧
      decompressPipeline (reverse_mapping codes) payload = text := by
  have hne : make_frequency_dict text [] ≠ [] := by
    intro h
    rw [h] at h2
    simp at h2
  obtain ⟨root, hroot, hperm⟩ := merge_root (make_frequency_dict text []) hne
  have hbuild : buildCodes text = some (make_codes_helper root []) := by
    unfold buildCodes
    rw [hroot]
    rfl
  obtain ⟨f, l, r, hrn⟩ : ∃ f l r, root = HeapNode.node f l r := by
    cases root with
    | leaf c k =>
        exfalso
        have hlen := hperm.length_eq
        simp only [HeapNode.leaves, List.length_singleton, List.length_map] at hlen
        omega
    | node f l r => exact ⟨f, l, r, rfl⟩
  have hlookup : ∀ c ∈ text, lookupA (make_codes_helper root []) c
      = some ((lookupA (make_codes_helper root []) c).getD []) := by
    intro c hc
    have hkeys : c ∈ (make_codes_helper root []).map Prod.fst := by
      rw [make_codes_helper_keys]
      exact hperm.mem_iff.mpr (mem_keys_make_frequency_dict text [] c (Or.inl hc))
    obtain ⟨v, hv⟩ := lookupA_isSome_of_mem_keys hkeys
    rw [hv]
    rfl
  have hcond : ∀ c ∈ text,
      (fun c => (lookupA (make_codes_helper root []) c).getD []) c ≠ [] ∧
      lookupA (reverse_mapping (make_codes_helper root []))
        ((fun c => (lookupA (make_codes_helper root []) c).getD []) c) = some c ∧
      (∀ q ∈ ((fun c => (lookupA (make_codes_helper root []) c).getD []) c).inits,
        q ≠ [] → q ≠ (fun c => (lookupA (make_codes_helper root []) c).getD []) c →
        lookupA (reverse_mapping (make_codes_helper root [])) q = none) := by
    intro c hc
    have hmemc : (c, (lookupA (make_codes_helper root []) c).getD [])
        ∈ make_codes_helper root [] := lookupA_mem (hlookup c hc)
    exact codes_decode_conditions root f l r hrn c _ hmemc
  have hencE := get_encoded_text_eq_concat (make_codes_helper root [])
    (fun c => (lookupA (make_codes_helper root []) c).getD []) text hlookup
  refine ⟨make_codes_helper root [],
    bytePack (pad_encoded_text (concatCodes
      (fun c => (lookupA (make_codes_helper root []) c).getD []) text)),
    hbuild, ?_, ?_⟩
  · simp only [compressPipeline, hbuild, hencE]
    rw [get_byte_array, if_neg (by simp [pad_encoded_text_length_mod])]
  · unfold decompressPipeline
    rw [bytesToBits_bytePack _ (pad_encoded_text_length_mod _),
      remove_padding_pad_encoded_text]
    unfold decode_text
    rw [decodeTextAux_concat (reverse_mapping (make_codes_helper root []))
      (fun c => (lookupA (make_codes_helper root []) c).getD []) text hcond]

/-- Claim C1, witness: the amended round trip at the two-symbol sequence
`[0, 1]`. -/
theorem round_trip_two_distinct_witness :
    2 ≤ (make_frequency_dict ([0, 1] : List Nat) []).length ∧
    ∃ codes payload,
      buildCodes ([0, 1] : List Nat) = some codes ∧
      compressPipeline ([0, 1] : List Nat) = some payload ∧
      decompressPipeline (reverse_mapping codes) payload = [0, 1] :=
  ⟨by decide, round_trip_two_distinct [0, 1] (by decide)⟩

/-- Claim C2, counterexample: for a code bit-string of length 0 (a multiple
of 8, and exactly what a single-symbol input produces), the padding count
computed by `pad_encoded_text` is `8 - 0 % 8 = 8`, not
`(8 - 0 % 8) % 8 = 0`, and the first payload byte is `8`, outside `0..7`. -/
theorem extra_padding_eight_when_aligned :
    extra_padding ([] : List Bool) = 8 ∧
    (8 - (List.length ([] : List Bool)) % 8) % 8 = 0 ∧
    get_byte_array (pad_encoded_text ([] : List Bool)) = some [8, 0] ∧
    ¬ extra_padding ([] : List Bool) ≤ 7 := by
  refine ⟨rfl, rfl, rfl, ?_⟩
  decide

/-- Claim C2, amended: the padding count is `8 - (len(B) mod 8)`, always
between 1 and 8 inclusive (8, not 0, when `len(B)` is already a multiple
of 8), and the first payload byte equals that padding count, hence lies in
`1..8`. -/
theorem extra_padding_bounds_and_header (e : List Bool) :
    1 ≤ extra_padding e ∧ extra_padding e ≤ 8 ∧
      (e.length % 8 = 0 → extra_padding e = 8) ∧
      ∃ body, get_byte_array (pad_encoded_text e) = some (extra_padding e :: body) := by
  refine ⟨extra_padding_pos e, extra_padding_le_eight e, ?_, ?_⟩
  · intro h
    unfold extra_padding
    omega
  · refine ⟨bytePack (e ++ List.replicate (extra_padding e) false), ?_⟩
    rw [get_byte_array, if_neg (by simp [pad_encoded_text_length_mod])]
    rw [pad_encoded_text,
      bytePack_append8 _ _ (toBinary8_length _
        (by have := extra_padding_le_eight e; omega)),
      bitsToNat_toBinary8]

/-- Claim C2, witness: the amended statement instantiated at a concrete
bit-string of length 1. -/
theorem extra_padding_bounds_and_header_witness :
    1 ≤ extra_padding [false] ∧ extra_padding [false] ≤ 8 ∧
      ((List.length [false]) % 8 = 0 → extra_padding [false] = 8) ∧
      ∃ body, get_byte_array (pad_encoded_text [false])
        = some (extra_padding [false] :: body) :=
  extra_padding_bounds_and_header [false]

/-- Claim C3: the code-table generation run on a root that is itself a leaf
(the outcome of any frequency table with exactly one distinct symbol)
assigns that symbol the empty code, not a fixed single-bit code: the
special case the spec requires is absent from the code. -/
theorem single_symbol_gets_empty_code (c : α) (k : Nat) :
    make_codes (merge_nodes (make_heap [(c, k)] [])) = some [(c, [])] := rfl

/-- Claim C4: the compression pipeline on the empty sequence does not
succeed with a single-header-byte payload; it fails (Python raises
`IndexError` popping the root off the empty heap in `make_codes`). -/
theorem compress_empty_input_fails :
    compressPipeline ([] : List Nat) = none := rfl

/-- Claim C5, counterexample: decoding `"10"` against the reverse map
`{"1" ↦ 0}` exhausts the input with the non-empty unmatched accumulator
`"0"`, yet `decode_text` does not fail: it returns the partial output
`[0]`. -/
theorem decode_text_emits_partial_output :
    decode_text [([true], (0 : Nat))] [true, false] = [0] ∧
    (decodeTextAux [([true], (0 : Nat))] [] [true, false]).2 = [false] ∧
    lookupA [([true], (0 : Nat))] [false] = none ∧
    decode_text [([true], (0 : Nat))] [true, false] ≠ [] := by
  refine ⟨rfl, rfl, rfl, ?_⟩
  decide

/-- Claim C5, amended: when the input is a decodable bit-string followed by
trailing bits no non-empty prefix of which is a reverse-map key, the
decoder does not fail and returns no error: it silently drops the trailing
bits (they remain as the final accumulator) and returns the symbols decoded
so far as partial output. -/
theorem decode_text_drops_unmatched_tail (rm : List (List Bool × α))
    (p g : List Bool)
    (hp : (decodeTextAux rm [] p).2 = [])
    (hg : ∀ q ∈ g.inits, q ≠ [] → lookupA rm q = none) :
    decode_text rm (p ++ g) = decode_text rm p ∧
      (decodeTextAux rm [] (p ++ g)).2 = g := by
  have happ := decodeTextAux_append rm p [] g
  rw [hp] at happ
  have hnm : decodeTextAux rm [] g = ([], g) := by
    apply decodeTextAux_no_match rm g []
    intro q hq hqne
    simpa using hg q hq hqne
  rw [hnm] at happ
  constructor
  · rw [decode_text, decode_text, happ]
    simp
  · rw [happ]

/-- Claim C5, witness: the amended statement at `p = "1"`, `g = "0"`,
reverse map `{"1" ↦ 0}`. -/
theorem decode_text_drops_unmatched_tail_witness :
    ((decodeTextAux [([true], (0 : Nat))] [] [true]).2 = [] ∧
      (∀ q ∈ ([false] : List Bool).inits, q ≠ [] →
        lookupA [([true], (0 : Nat))] q = none)) ∧
    (decode_text [([true], (0 : Nat))] ([true] ++ [false])
        = decode_text [([true], (0 : Nat))] [true] ∧
      (decodeTextAux [([true], (0 : Nat))] [] ([true] ++ [false])).2 = [false]) :=
  ⟨⟨by decide, by decide⟩,
    decode_text_drops_unmatched_tail [([true], (0 : Nat))] [true] [false]
      (by decide) (by decide)⟩

/-- Claim C6, counterexample: a padded bit-string whose 8-bit header encodes
`pad = 0` followed by the one-bit remainder `"1"`.  The claim says the
remainder is returned unchanged; `remove_padding` (Python `s[:-0]`) returns
the empty string instead. -/
theorem remove_padding_zero_pad_returns_empty :
    remove_padding (toBinary8 0 ++ [true]) = [] ∧
    remove_padding (toBinary8 0 ++ [true]) ≠ [true] := by
  refine ⟨rfl, ?_⟩
  decide

/-- Claim C6, amended: for a header value `1 ≤ pad ≤ len(remainder)` (every
value the encoder actually writes is ≥ 1), `remove_padding` returns the
remainder after the 8 header bits with exactly its last `pad` bits dropped;
for `pad = 0` it instead returns the empty string (Python's `s[:-0]`). -/
theorem remove_padding_drops_exactly_pad (pad : Nat) (rest : List Bool)
    (h1 : 1 ≤ pad) (h2 : pad ≤ rest.length) (h3 : pad < 256) :
    remove_padding (toBinary8 pad ++ rest) = rest.take (rest.length - pad) := by
  have hlen8 : (toBinary8 pad).length = 8 := toBinary8_length pad h3
  simp only [remove_padding]
  rw [show (8 : Nat) = (toBinary8 pad).length from hlen8.symm]
  rw [List.take_left, List.drop_left, bitsToNat_toBinary8]
  rw [if_neg (by omega)]

/-- Claim C6, witness: the amended statement at `pad = 1`,
remainder `"10"`. -/
theorem remove_padding_drops_exactly_pad_witness :
    (1 ≤ 1 ∧ 1 ≤ List.length [true, false] ∧ 1 < 256) ∧
    remove_padding (toBinary8 1 ++ [true, false])
      = List.take (List.length [true, false] - 1) [true, false] :=
  ⟨⟨by decide, by decide, by decide⟩,
    remove_padding_drops_exactly_pad 1 [true, false]
      (by decide) (by decide) (by decide)⟩

/-- Claim C7: for every non-empty frequency table, the code table generated
from the merged tree is prefix-free: the codes of distinct symbols are
never in a prefix relation. -/
theorem generated_codes_prefix_free (freq : List (α × Nat)) (hne : freq ≠ []) :
    ∃ codes, make_codes (merge_nodes (make_heap freq [])) = some codes ∧
      ∀ a b ca cb, a ≠ b → lookupA codes a = some ca →
        lookupA codes b = some cb → ¬ ca <+: cb := by
  obtain ⟨root, hroot, _⟩ := merge_root freq hne
  refine ⟨make_codes_helper root [], by rw [hroot]; rfl, ?_⟩
  intro a b ca cb hab ha hb hpre
  exact hab (make_codes_helper_prefix_eq root [] a b ca cb
    (lookupA_mem ha) (lookupA_mem hb) hpre).1

/-- Claim C7, witness: prefix-freeness at the concrete frequency table
`{0 ↦ 1, 1 ↦ 2}`. -/
theorem generated_codes_prefix_free_witness :
    ([((0 : Nat), 1), (1, 2)] : List (Nat × Nat)) ≠ [] ∧
    ∃ codes, make_codes (merge_nodes (make_heap [((0 : Nat), 1), (1, 2)] []))
        = some codes ∧
      ∀ a b ca cb, a ≠ b → lookupA codes a = some ca →
        lookupA codes b = some cb → ¬ ca <+: cb :=
  ⟨by decide, generated_codes_prefix_free [((0 : Nat), 1), (1, 2)] (by decide)⟩

/-- Claim C8: every bit-string produced by the padding step has length an
exact multiple of 8, so the defensive misalignment branch of
`get_byte_array` is never taken on such input: packing always succeeds. -/
theorem padded_text_byte_aligned (e : List Bool) :
    (pad_encoded_text e).length % 8 = 0 ∧
      ∃ bs, get_byte_array (pad_encoded_text e) = some bs := by
  refine ⟨pad_encoded_text_length_mod e, bytePack (pad_encoded_text e), ?_⟩
  rw [get_byte_array, if_neg (by simp [pad_encoded_text_length_mod])]

/-- Claim C9: `get_encoded_text` fails (Python raises `KeyError`, emitting
nothing) if and only if some symbol of the sequence has no entry in the
forward code table. -/
theorem get_encoded_text_none_iff_unknown_symbol (codes : List (α × List Bool)) :
    ∀ (text : List α),
      get_encoded_text codes text = none ↔ ∃ c ∈ text, lookupA codes c = none := by
  intro text
  induction text with
  | nil => simp [get_encoded_text]
  | cons c rest ih =>
      cases hl : lookupA codes c with
      | none =>
          simp only [get_encoded_text, hl]
          constructor
          · intro _
            exact ⟨c, List.mem_cons_self _ _, hl⟩
          · intro _
            trivial
      | some code =>
          cases he : get_encoded_text codes rest with
          | none =>
              simp only [get_encoded_text, hl, he]
              constructor
              · intro _
                obtain ⟨x, hx, hxl⟩ := ih.mp he
                exact ⟨x, List.mem_cons_of_mem _ hx, hxl⟩
              · intro _
                trivial
          | some e =>
              simp only [get_encoded_text, hl, he]
              constructor
              · intro h
                exact absurd h (by simp)
              · intro hex
                obtain ⟨x, hx, hxl⟩ := hex
                rcases List.mem_cons.mp hx with rfl | hx2
                · rw [hl] at hxl
                  exact absurd hxl (by simp)
                · have hn : get_encoded_text codes rest = none := ih.mpr ⟨x, hx2, hxl⟩
                  rw [he] at hn
                  exact absurd hn (by simp)

/-- Claim C10: packing a byte-aligned bit-string into bytes and expanding
each byte back into 8 bits (most-significant bit first, leading-zero fill),
as the decompressor does, reproduces the original bit-string exactly. -/
theorem byte_pack_unpack_round_trip (bits : List Bool) (h : bits.length % 8 = 0) :
    ∃ bs, get_byte_array bits = some bs ∧ bytesToBits bs = bits := by
  refine ⟨bytePack bits, ?_, bytesToBits_bytePack bits h⟩
  rw [get_byte_array, if_neg (by simp [h])]

/-- Claim C10, witness: the byte packing round trip at a concrete 16-bit
string. -/
theorem byte_pack_unpack_round_trip_witness :
    (List.length [true, false, false, true, false, false, false, true,
      false, true, true, false, false, false, false, true]) % 8 = 0 ∧
    ∃ bs, get_byte_array [true, false, false, true, false, false, false, true,
        false, true, true, false, false, false, false, true] = some bs ∧
      bytesToBits bs = [true, false, false, true, false, false, false, true,
        false, true, true, false, false, false, false, true] :=
  ⟨by decide, byte_pack_unpack_round_trip _ (by decide)⟩

end Huffman
